import Mathlib

/-!
Verification of `casey/lexiclean` (`src/lib.rs`): lexical path cleaning.

The crate's `Lexiclean::lexiclean` walks the parsed components of a path
left to right, maintaining a `Vec` used as a stack, and finally replaces an
empty result by a single `.CurDir`.  We embed the function shallowly on an
already-parsed component sequence (parsing and serialization are external
collaborators per the spec) and prove the specified properties.
-/

namespace Lexiclean

/-- The component type, mirroring the variants of `std::path::Component`
used by the crate: `.Prefix(p)`, `.RootDir`, `.CurDir`, `.ParentDir`,
`.Normal(name)`.  The payloads of `.Prefix` and `.Normal` are opaque text. -/
inductive Component where
  | Prefix (p : String)
  | RootDir
  | CurDir
  | ParentDir
  | Normal (name : String)
deriving DecidableEq


/-- One iteration of the `for` loop in `Lexiclean::lexiclean`
(src/lib.rs:34-45): `.CurDir` is dropped; `.ParentDir` pops a `.Normal` top,
is pushed when the stack is empty or its top is `.ParentDir`, is dropped on
a `.RootDir`/`.Prefix` top, and hits `unreachable!()` on a `.CurDir` top
(modelled as `none`); `.Normal`, `.Prefix` and `.RootDir` are pushed.
The stack grows at the right end, as the Rust `Vec` does
(`last()` = `List.getLast?`, `pop()` = `List.dropLast`). -/
def step (components : List Component) (component : Component) :
    Option (List Component) :=
  match component with
  | .CurDir => some components
  | .ParentDir =>
    match components.getLast? with
    | some (.Normal _) => some components.dropLast
    | some .ParentDir | none => some (components ++ [component])
    | some .RootDir | some (.Prefix _) => some components
    | some .CurDir => none
  | .Normal _ | .Prefix _ | .RootDir => some (components ++ [component])

/-- The `for` loop of `Lexiclean::lexiclean` (src/lib.rs:33-46), threading
the stack through `step`; `none` propagates the `unreachable!()` case. -/
def runLoop (components : List Component) :
    List Component → Option (List Component)
  | [] => some components
  | c :: rest =>
    match step components c with
    | none => none
    | some components2 => runLoop components2 rest

/-- `Lexiclean::lexiclean` (src/lib.rs:28-53) on an already-parsed
component sequence: run the loop from the empty stack, then push a single
`.CurDir` if the result is empty.  `none` models reaching `unreachable!()`. -/
def lexiclean (input : List Component) : Option (List Component) :=
  match runLoop [] input with
  | none => none
  | some components =>
    some (if components.isEmpty then [.CurDir] else components)

/-- The reference algorithm of §4.1 of the spec, one table row: `.CurDir`
is discarded; `.ParentDir` pops a `.Normal` top, is pushed when `out` is
empty or its top is `.ParentDir`, and is discarded when the top is
`.RootDir` or `.Prefix`; `.RootDir`, `.Prefix` and `.Normal` are always pushed.
The table leaves a `.CurDir` top unspecified for `.ParentDir` (its rules
never put a `.CurDir` on the stack); this total model discards there. -/
def specStep (out : List Component) (c : Component) : List Component :=
  match c with
  | .CurDir => out
  | .ParentDir =>
    match out.getLast? with
    | some (.Normal _) => out.dropLast
    | some .ParentDir | none => out ++ [c]
    | some .RootDir | some (.Prefix _) => out
    | some .CurDir => out
  | .Normal _ | .Prefix _ | .RootDir => out ++ [c]

/-- The spec's `normalize` (§4.1): fold the table over the input from the
empty stack, then apply the final-result policy (empty stack ↦ `[.CurDir]`). -/
def normalize (input : List Component) : List Component :=
  let out := input.foldl specStep []
  if out = [] then [.CurDir] else out

/-- Components that every rule of the pass pushes unconditionally: neither
`.CurDir` (always discarded) nor `.ParentDir` (context-dependent). -/
def Solid (c : Component) : Prop := c ≠ .CurDir ∧ c ≠ .ParentDir

/-- The shape invariant of the working stack: a block of `.ParentDir`s
followed by components that are neither `.CurDir` nor `.ParentDir`. -/
def Clean (l : List Component) : Prop :=
  ∃ k m, l = List.replicate k .ParentDir ++ m ∧ ∀ c ∈ m, Solid c

/-- The anchors of §4.1: `.RootDir` and `.Prefix` components, which cannot
be cancelled by a following `.ParentDir`. -/
def IsAnchor (c : Component) : Prop := c = .RootDir ∨ ∃ p, c = .Prefix p

example : lexiclean [] = some [.CurDir] := rfl
example : lexiclean [.Normal "foo", .ParentDir] = some [.CurDir] := by rfl
example : lexiclean [.RootDir, .ParentDir] = some [.RootDir] := by rfl
example : lexiclean [.RootDir, .Normal "foo", .ParentDir, .Normal "bar"]
    = some [.RootDir, .Normal "bar"] := by rfl
example : lexiclean [.ParentDir, .ParentDir] = some [.ParentDir, .ParentDir] := by
  rfl
example : normalize [.Normal "foo", .CurDir, .Normal "bar"]
    = [.Normal "foo", .Normal "bar"] := by rfl

/-! ### The loop never reaches `unreachable!()`, and agrees with §4.1 -/

lemma getLast?_ne_curDir {out : List Component} (h : Component.CurDir ∉ out) :
    out.getLast? ≠ some .CurDir := fun hc =>
  h (List.mem_of_mem_getLast? (Option.mem_def.mpr hc))

lemma step_eq_specStep {out : List Component} (c : Component)
    (h : Component.CurDir ∉ out) : step out c = some (specStep out c) := by
  cases c with
  | CurDir => rfl
  | ParentDir =>
    cases hl : out.getLast? with
    | none => simp [step, specStep, hl]
    | some t =>
      cases t with
      | CurDir => exact absurd hl (getLast?_ne_curDir h)
      | Prefix p => simp [step, specStep, hl]
      | RootDir => simp [step, specStep, hl]
      | ParentDir => simp [step, specStep, hl]
      | Normal name => simp [step, specStep, hl]
  | Prefix p => rfl
  | RootDir => rfl
  | Normal name => rfl

lemma curDir_not_mem_specStep {out : List Component} (c : Component)
    (h : Component.CurDir ∉ out) : Component.CurDir ∉ specStep out c := by
  cases c with
  | CurDir => simpa [specStep] using h
  | ParentDir =>
    cases hl : out.getLast? with
    | none => simp [specStep, hl, h]
    | some t =>
      cases t with
      | CurDir => simp [specStep, hl, h]
      | Prefix p => simp [specStep, hl, h]
      | RootDir => simp [specStep, hl, h]
      | ParentDir => simp [specStep, hl, h]
      | Normal name =>
        simp only [specStep, hl]
        exact fun hm => h ((List.dropLast_sublist out).subset hm)
  | Prefix p => simp [specStep, h]
  | RootDir => simp [specStep, h]
  | Normal name => simp [specStep, h]

lemma runLoop_eq_foldl (l : List Component) {out : List Component}
    (h : Component.CurDir ∉ out) :
    runLoop out l = some (l.foldl specStep out) := by
  induction l generalizing out with
  | nil => rfl
  | cons c rest ih =>
    simp only [runLoop, step_eq_specStep c h, List.foldl_cons]
    exact ih (curDir_not_mem_specStep c h)

lemma lexiclean_eq_normalize (input : List Component) :
    lexiclean input = some (normalize input) := by
  rw [lexiclean, runLoop_eq_foldl input (List.not_mem_nil _)]
  unfold normalize
  cases hl : input.foldl specStep [] with
  | nil => simp
  | cons a l => simp

/-! ### The stack shape invariant and idempotence -/

lemma clean_nil : Clean [] := ⟨0, [], rfl, by simp⟩

lemma solid_append {m : List Component} {a : Component}
    (hm : ∀ c ∈ m, Solid c) (ha : Solid a) : ∀ c ∈ m ++ [a], Solid c := by
  intro c hc
  rcases List.mem_append.mp hc with h | h
  · exact hm c h
  · rw [List.mem_singleton.mp h]
    exact ha

lemma clean_specStep {out : List Component} (c : Component) (h : Clean out) :
    Clean (specStep out c) := by
  obtain ⟨k, m, rfl, hm⟩ := h
  cases c with
  | CurDir => exact ⟨k, m, rfl, hm⟩
  | RootDir =>
    refine ⟨k, m ++ [.RootDir], ?_, solid_append hm (by simp [Solid])⟩
    simp [specStep]
  | Prefix p =>
    refine ⟨k, m ++ [.Prefix p], ?_, solid_append hm (by simp [Solid])⟩
    simp [specStep]
  | Normal name =>
    refine ⟨k, m ++ [.Normal name], ?_, solid_append hm (by simp [Solid])⟩
    simp [specStep]
  | ParentDir =>
    rcases List.eq_nil_or_concat m with rfl | ⟨m', a, rfl⟩
    · have hl : (List.replicate k Component.ParentDir ++ []).getLast?
          = (List.replicate k Component.ParentDir).getLast? := by simp
      rw [List.getLast?_replicate] at hl
      rcases Nat.eq_zero_or_pos k with rfl | hk
      · exact ⟨1, [], by simp [specStep], by simp⟩
      · refine ⟨k + 1, [], ?_, by simp⟩
        simp only [specStep, hl, if_neg (Nat.pos_iff_ne_zero.mp hk)]
        simp [List.replicate_succ']
    · simp only [List.concat_eq_append] at hm ⊢
      have ha : Solid a := hm a (by simp)
      have hl : (List.replicate k Component.ParentDir ++ (m' ++ [a])).getLast?
          = some a := by
        rw [← List.append_assoc]
        exact List.getLast?_concat _
      cases a with
      | CurDir => exact absurd rfl ha.1
      | ParentDir => exact absurd rfl ha.2
      | Normal name =>
        refine ⟨k, m', ?_, fun c hc => hm c (by simp [hc])⟩
        simp only [specStep, hl]
        rw [← List.append_assoc]
        exact List.dropLast_concat
      | RootDir =>
        exact ⟨k, m' ++ [.RootDir], by simp [specStep, hl], hm⟩
      | Prefix p =>
        exact ⟨k, m' ++ [.Prefix p], by simp [specStep, hl], hm⟩

lemma clean_foldl_of_clean (l : List Component) {out : List Component}
    (h : Clean out) : Clean (l.foldl specStep out) := by
  induction l generalizing out with
  | nil => exact h
  | cons c rest ih => exact ih (clean_specStep c h)

lemma foldl_specStep_solid {m : List Component} (hm : ∀ c ∈ m, Solid c)
    (out : List Component) : m.foldl specStep out = out ++ m := by
  induction m generalizing out with
  | nil => simp
  | cons c rest ih =>
    have hc : Solid c := hm c (by simp)
    have hstep : specStep out c = out ++ [c] := by
      cases c with
      | CurDir => exact absurd rfl hc.1
      | ParentDir => exact absurd rfl hc.2
      | RootDir => rfl
      | Prefix p => rfl
      | Normal name => rfl
    rw [List.foldl_cons, hstep, ih (fun c h => hm c (by simp [h]))]
    simp

lemma specStep_replicate (k : ℕ) :
    specStep (List.replicate k Component.ParentDir) .ParentDir
      = List.replicate (k + 1) .ParentDir := by
  rcases Nat.eq_zero_or_pos k with rfl | hk
  · rfl
  · have hl : (List.replicate k Component.ParentDir).getLast?
        = some .ParentDir := by
      rw [List.getLast?_replicate, if_neg (Nat.pos_iff_ne_zero.mp hk)]
    simp only [specStep, hl]
    rw [List.replicate_succ']

lemma foldl_specStep_replicate (k j : ℕ) :
    (List.replicate k Component.ParentDir).foldl specStep
        (List.replicate j .ParentDir)
      = List.replicate (j + k) .ParentDir := by
  induction k generalizing j with
  | zero => simp
  | succ n ih =>
    rw [List.replicate_succ, List.foldl_cons, specStep_replicate j, ih (j + 1)]
    have : j + 1 + n = j + (n + 1) := by omega
    rw [this]

lemma clean_foldl_self {l : List Component} (h : Clean l) :
    l.foldl specStep [] = l := by
  obtain ⟨k, m, rfl, hm⟩ := h
  rw [List.foldl_append]
  have h1 : (List.replicate k Component.ParentDir).foldl specStep []
      = List.replicate k .ParentDir := by
    simpa using foldl_specStep_replicate k 0
  rw [h1, foldl_specStep_solid hm]

lemma normalize_normalize (s : List Component) :
    normalize (normalize s) = normalize s := by
  have hcl : Clean (s.foldl specStep []) := clean_foldl_of_clean s clean_nil
  unfold normalize
  cases hl : s.foldl specStep [] with
  | nil => simp [specStep]
  | cons a l =>
    rw [hl] at hcl
    have hfix : (a :: l).foldl specStep [] = a :: l := clean_foldl_self hcl
    simp [hfix]

/-! ### Containment: the stack is a subsequence of the consumed input -/

lemma specStep_sublist (out : List Component) (c : Component) :
    (specStep out c).Sublist (out ++ [c]) := by
  cases c with
  | CurDir => exact List.sublist_append_left _ _
  | RootDir => exact List.Sublist.refl _
  | Prefix p => exact List.Sublist.refl _
  | Normal name => exact List.Sublist.refl _
  | ParentDir =>
    cases hl : out.getLast? with
    | none => simp [specStep, hl]
    | some t =>
      cases t with
      | CurDir => simp [specStep, hl]
      | RootDir => simp [specStep, hl]
      | Prefix p => simp [specStep, hl]
      | ParentDir => simp [specStep, hl]
      | Normal name =>
        simp only [specStep, hl]
        exact (List.dropLast_sublist out).trans (List.sublist_append_left _ _)

lemma foldl_specStep_sublist (l : List Component) (out : List Component) :
    (l.foldl specStep out).Sublist (out ++ l) := by
  induction l generalizing out with
  | nil => simp
  | cons c rest ih =>
    rw [List.foldl_cons]
    have h1 := ih (specStep out c)
    have h2 := (specStep_sublist out c).append_right rest
    have h3 := h1.trans h2
    simpa using h3

/-! ### Anchors stay at the bottom of the stack -/

lemma specStep_head? {out : List Component} {a : Component} (c : Component)
    (ha : IsAnchor a) (h : out.head? = some a) :
    (specStep out c).head? = some a := by
  obtain ⟨rest, rfl⟩ : ∃ rest, out = a :: rest := by
    cases out with
    | nil => simp at h
    | cons b rest =>
      have hb : b = a := by simpa using h
      exact ⟨rest, by rw [hb]⟩
  cases c with
  | CurDir => simp [specStep]
  | RootDir => simp [specStep]
  | Prefix p => simp [specStep]
  | Normal name => simp [specStep]
  | ParentDir =>
    cases hl : (a :: rest).getLast? with
    | none => simp at hl
    | some t =>
      cases t with
      | CurDir => simp [specStep, hl]
      | RootDir => simp [specStep, hl]
      | Prefix p => simp [specStep, hl]
      | ParentDir => simp [specStep, hl]
      | Normal name =>
        cases rest with
        | nil =>
          have : a = .Normal name := by simpa using hl
          rcases ha with rfl | ⟨p, rfl⟩ <;> simp at this
        | cons b rest' =>
          simp only [specStep, hl]
          simp [List.dropLast]

lemma foldl_specStep_head? {a : Component} (ha : IsAnchor a)
    (l : List Component) {out : List Component} (h : out.head? = some a) :
    (l.foldl specStep out).head? = some a := by
  induction l generalizing out with
  | nil => exact h
  | cons c rest ih => exact ih (specStep_head? c ha h)

lemma lexiclean_anchor {a : Component} (ha : IsAnchor a)
    (rest : List Component) :
    ∃ t, lexiclean (a :: rest) = some t ∧ t ≠ [] ∧ t.head? = some a := by
  have h0 : (specStep [] a).head? = some a := by
    rcases ha with rfl | ⟨p, rfl⟩ <;> rfl
  have hh : ((a :: rest).foldl specStep []).head? = some a := by
    rw [List.foldl_cons]
    exact foldl_specStep_head? ha rest h0
  have hne : (a :: rest).foldl specStep [] ≠ [] := by
    intro hnil
    rw [hnil] at hh
    simp at hh
  refine ⟨(a :: rest).foldl specStep [], ?_, hne, hh⟩
  rw [lexiclean_eq_normalize]
  simp only [normalize]
  rw [if_neg hne]

/-! ### Runs on all-`CurDir` inputs, and the stack length bound -/

lemma runLoop_curDirs {s : List Component} (h : ∀ c ∈ s, c = .CurDir)
    (out : List Component) : runLoop out s = some out := by
  induction s generalizing out with
  | nil => rfl
  | cons c rest ih =>
    obtain rfl : c = Component.CurDir := h c (by simp)
    simp only [runLoop, step]
    exact ih (fun c hc => h c (by simp [hc])) out

lemma specStep_length (out : List Component) (c : Component) :
    (specStep out c).length ≤ out.length + 1 := by
  cases c with
  | CurDir => simp [specStep]
  | RootDir => simp [specStep]
  | Prefix p => simp [specStep]
  | Normal name => simp [specStep]
  | ParentDir =>
    cases hl : out.getLast? with
    | none => simp [specStep, hl]
    | some t =>
      cases t with
      | CurDir => simp [specStep, hl]
      | RootDir => simp [specStep, hl]
      | Prefix p => simp [specStep, hl]
      | ParentDir => simp [specStep, hl]
      | Normal name =>
        simp only [specStep, hl]
        have := List.length_dropLast out
        omega

lemma foldl_specStep_length (l : List Component) (out : List Component) :
    (l.foldl specStep out).length ≤ out.length + l.length := by
  induction l generalizing out with
  | nil => simp
  | cons c rest ih =>
    rw [List.foldl_cons]
    have h1 := ih (specStep out c)
    have h2 := specStep_length out c
    simp only [List.length_cons]
    omega

/-! ### The claims -/

/-- C1: `lexiclean` equals the reference algorithm of §4.1 — the
left-to-right pass with the stack rules (`CurDir` discarded, `ParentDir`
pops a `Normal` top, is pushed on an empty or `ParentDir` top, is
discarded on a `RootDir`/`Prefix` top, everything else pushed), followed
by the empty-stack ↦ `[CurDir]` final policy. -/
theorem lexiclean_refines_spec (s : List Component) :
    lexiclean s = some (normalize s) :=
  lexiclean_eq_normalize s

/-- C2: `lexiclean` is idempotent — normalizing an output returns it
unchanged. -/
theorem lexiclean_idempotent (s t : List Component)
    (h : lexiclean s = some t) : lexiclean t = some t := by
  rw [lexiclean_eq_normalize] at h
  obtain rfl : t = normalize s := (Option.some.inj h).symm
  rw [lexiclean_eq_normalize, normalize_normalize]

/-- Witness for C2 at `s = [Normal "a", CurDir]`, `t = [Normal "a"]`. -/
theorem lexiclean_idempotent_witness :
    lexiclean [Component.Normal "a"] = some [Component.Normal "a"] :=
  lexiclean_idempotent [Component.Normal "a", Component.CurDir]
    [Component.Normal "a"] rfl

/-- C3 counterexample: on the empty input the output is `[CurDir]`, and
`CurDir` did not appear in the input — the final-result policy invents a
component, so vocabulary containment fails as a universal statement. -/
theorem lexiclean_invents_curDir :
    lexiclean [] = some [Component.CurDir] ∧
      Component.CurDir ∉ ([] : List Component) :=
  ⟨rfl, List.not_mem_nil _⟩

/-- C3 (amended): for every input `s`, either the output is the canonical
`[CurDir]` supplied by the empty-stack policy, or the output is a
subsequence of `s` — its components appeared unchanged in `s`, in the same
relative order. -/
theorem lexiclean_vocabulary_containment (s t : List Component)
    (h : lexiclean s = some t) :
    t = [Component.CurDir] ∨ t.Sublist s := by
  rw [lexiclean_eq_normalize] at h
  obtain rfl : t = normalize s := (Option.some.inj h).symm
  by_cases hnil : s.foldl specStep [] = []
  · left
    simp only [normalize]
    rw [if_pos hnil]
  · right
    simp only [normalize]
    rw [if_neg hnil]
    simpa using foldl_specStep_sublist s []

/-- Witness for C3 (amended) at `s = [Normal "a", CurDir]`,
`t = [Normal "a"]`. -/
theorem lexiclean_vocabulary_containment_witness :
    [Component.Normal "a"] = [Component.CurDir] ∨
      List.Sublist [Component.Normal "a"]
        [Component.Normal "a", Component.CurDir] :=
  lexiclean_vocabulary_containment [Component.Normal "a", Component.CurDir]
    [Component.Normal "a"] rfl

/-- C4: `lexiclean` is total — the `unreachable!()` arm (a `CurDir` stack
top while processing `ParentDir`) is never executed, so every input
produces an output. -/
theorem lexiclean_total (s : List Component) : (lexiclean s).isSome = true := by
  rw [lexiclean_eq_normalize]
  rfl

/-- C5: anchor floor — an input beginning with `RootDir` or a `Prefix`
never normalizes to a sequence beginning with `ParentDir`. -/
theorem lexiclean_anchor_floor (a : Component) (rest t : List Component)
    (ha : IsAnchor a) (h : lexiclean (a :: rest) = some t) :
    t.head? ≠ some .ParentDir := by
  obtain ⟨t', ht', hne, hh⟩ := lexiclean_anchor ha rest
  rw [ht'] at h
  obtain rfl : t = t' := (Option.some.inj h).symm
  rw [hh]
  rcases ha with rfl | ⟨p, rfl⟩ <;> simp

/-- Witness for C5 at input `[RootDir]`. -/
theorem lexiclean_anchor_floor_witness :
    ([Component.RootDir] : List Component).head? ≠ some .ParentDir :=
  lexiclean_anchor_floor .RootDir [] [.RootDir] (Or.inl rfl) rfl

/-- C6: cancellation — `[Normal a, ParentDir]` normalizes to exactly
`[CurDir]` for every name `a`. -/
theorem lexiclean_cancellation (a : String) :
    lexiclean [Component.Normal a, Component.ParentDir]
      = some [Component.CurDir] := rfl

/-- C7: an input consisting solely of `CurDir` components (including the
empty input) normalizes to exactly `[CurDir]`. -/
theorem lexiclean_curDir_only (s : List Component)
    (h : ∀ c ∈ s, c = Component.CurDir) :
    lexiclean s = some [Component.CurDir] := by
  simp only [lexiclean, runLoop_curDirs h]
  rfl

/-- Witness for C7 at input `[CurDir, CurDir]`. -/
theorem lexiclean_curDir_only_witness :
    lexiclean [Component.CurDir, Component.CurDir]
      = some [Component.CurDir] :=
  lexiclean_curDir_only [Component.CurDir, Component.CurDir] (by decide)

/-- C8: each single-component input `[CurDir]`, `[ParentDir]`,
`[RootDir]`, `[Prefix p]` is a fixed point of `lexiclean`. -/
theorem lexiclean_single_component_fixed (p : String) :
    lexiclean [Component.CurDir] = some [Component.CurDir] ∧
      lexiclean [Component.ParentDir] = some [Component.ParentDir] ∧
      lexiclean [Component.RootDir] = some [Component.RootDir] ∧
      lexiclean [Component.Prefix p] = some [Component.Prefix p] :=
  ⟨rfl, rfl, rfl, rfl⟩

/-- C9: the working stack is bounded — after consuming any prefix `pre`
of the input, the stack holds at most `pre.length` entries (each
iteration pushes at most one component). -/
theorem lexiclean_stack_bounded (pre out : List Component)
    (h : runLoop [] pre = some out) : out.length ≤ pre.length := by
  rw [runLoop_eq_foldl pre (List.not_mem_nil _)] at h
  have hlen := foldl_specStep_length pre []
  obtain rfl : out = pre.foldl specStep [] := (Option.some.inj h).symm
  simpa using hlen

/-- Witness for C9 at `pre = [CurDir]`, where the stack stays empty. -/
theorem lexiclean_stack_bounded_witness :
    ([] : List Component).length ≤ [Component.CurDir].length :=
  lexiclean_stack_bounded [Component.CurDir] [] rfl

/-- C10: absolute inputs stay anchored — an input beginning with
`RootDir` or a `Prefix` produces a non-empty output beginning with that
same component; the empty-to-`CurDir` fallback never applies. -/
theorem lexiclean_absolute_anchored (a : Component) (rest : List Component)
    (ha : IsAnchor a) :
    ∃ t, lexiclean (a :: rest) = some t ∧ t ≠ [] ∧ t.head? = some a :=
  lexiclean_anchor ha rest

/-- Witness for C10 at input `[RootDir, ParentDir]`. -/
theorem lexiclean_absolute_anchored_witness :
    ∃ t, lexiclean [Component.RootDir, Component.ParentDir] = some t ∧
      t ≠ [] ∧ t.head? = some Component.RootDir :=
  lexiclean_absolute_anchored .RootDir [.ParentDir] (Or.inl rfl)

end Lexiclean
